import Mathlib

/-!
# Verification of the stacked-bar layout and label-placement engine

Shallow embedding of the layout engine of `src/apps/report_sgk/main.py`
(`render_stacked_bar`, `calculate_flexbox_positions`, `aggregate_group`,
`order_options_by_overall`, `cell_to_unique_set` and their helpers).

Modelling conventions:
* Python floats are modelled by exact rationals (`ℚ`); the arithmetic of the
  source contains no float-specific tricks, so the rational semantics is the
  idealised meaning of the code.
* A Python `dict` is modelled by an association list `List (String × α)`
  together with `dget`, the model of `d.get(k, default)`; a `dict` never has
  duplicate keys, which appears below as `Nodup` hypotheses on key lists.
* A Python `set` of strings is modelled by a duplicate-free `List String`;
  set-iteration order is arbitrary in Python and the results below only
  depend on the set, therefore a fixed enumeration order is used.
* Python's `sorted` (a stable sort w.r.t. a total preorder) is modelled by
  `List.insertionSort`, which is also stable, so both produce the same list.
-/

namespace SGK

/-- Model of Python `d.get(k, dflt)` on a dict modelled as an association
list: value of the first pair whose key is `k`, else the default. -/
def dget {α : Type} (dflt : α) : List (String × α) → String → α
  | [], _ => dflt
  | (k, v) :: rest, o => if k = o then v else dget dflt rest o

/-- Model of `sum(d.values())` for a dict modelled as an association list. -/
def dictSum (d : List (String × Nat)) : Nat :=
  (d.map Prod.snd).sum

/-- Model of `counts[k] += 1` on a dict (all pairs carrying key `k` are
bumped; a real dict has exactly one). -/
def incKey (d : List (String × Nat)) (k : String) : List (String × Nat) :=
  d.map (fun p => if p.1 = k then (p.1, p.2 + 1) else p)

/-- `ComponentConfig` of `main.py` (the fields the layout engine reads). -/
structure ComponentConfig where
  min_segment_width_pct : ℚ
  outside_label_threshold_pct : ℚ
  outside_label_with_inner_pct_threshold : ℚ

/-- The default `ComponentConfig()` values (1.0, 24.0, 5.0). -/
def defaultConfig : ComponentConfig :=
  { min_segment_width_pct := 1
    outside_label_threshold_pct := 24
    outside_label_with_inner_pct_threshold := 5 }

/-- Model of `HTMLComponents.escape_html`: the chained
`.replace("&","&amp;").replace("<","&lt;").replace(">","&gt;")`.  Because no
replacement string contains a character replaced by a later stage, the chain
acts independently on each character, which is how it is written here. -/
def escape_html (s : String) : String :=
  String.join (s.toList.map (fun c =>
    if c = '&' then "&amp;"
    else if c = '<' then "&lt;"
    else if c = '>' then "&gt;"
    else String.mk [c]))

/-- Model of Python `round(x, 1)` on exact rationals: round `10*x` half to
even, divide by 10. -/
def pyRound1 (x : ℚ) : ℚ :=
  let y := 10 * x
  let n : ℤ := ⌊y⌋
  let r : ℤ :=
    if y - n < 1/2 then n
    else if 1/2 < y - n then n + 1
    else if n % 2 = 0 then n else n + 1
  (r : ℚ) / 10

/-- Model of the f-string rendering `{label_pct}` of a nonnegative float that
is an exact multiple of 1/10 (Python prints e.g. `20.0`, `3.3`). -/
def formatFloat1 (q : ℚ) : String :=
  let n : ℤ := ⌊q * 10⌋
  toString (n / 10) ++ "." ++ toString (n % 10).natAbs

/-- Digit grouping of `f"{S:,}"`, working on the reversed digit list. -/
def commaGroupRev (l : List Char) : List Char :=
  if l.length ≤ 3 then l
  else l.take 3 ++ ',' :: commaGroupRev (l.drop 3)
termination_by l.length
decreasing_by simp; omega

/-- Model of Python `f"{n:,}"` for a natural number. -/
def commaFmt (n : ℕ) : String :=
  String.mk ((commaGroupRev (toString n).toList.reverse).reverse)

/-! ## Width allocator (`render_stacked_bar`, steps 1–4) -/

/-- `S = sum(counts.values())` as recomputed at the top of
`render_stacked_bar`. -/
def barS (counts : List (String × Nat)) : Nat := dictSum counts

/-- Step 1: `actual_widths[o] = (c / S) * 100.0` for `c = counts.get(o, 0)`. -/
def actualWidth (counts : List (String × Nat)) (o : String) : ℚ :=
  (((dget 0 counts o : ℕ) : ℚ) / (barS counts : ℚ)) * 100

/-- The keys of the `actual_widths` dict: options of `order` whose count is
positive, in `order` order. -/
def posOpts (counts : List (String × Nat)) (order : List String) : List String :=
  order.filter (fun o => 0 < dget 0 counts o)

/-- Step 2 classification: an option is an inside segment iff its actual
width is not below `outside_label_threshold_pct`. -/
def isInside (cfg : ComponentConfig) (counts : List (String × Nat)) (o : String) : Prop :=
  ¬ actualWidth counts o < cfg.outside_label_threshold_pct

instance (cfg : ComponentConfig) (counts : List (String × Nat)) (o : String) :
    Decidable (isInside cfg counts o) := by
  unfold isInside; infer_instance

/-- The `inside_segments` list of step 2. -/
def insideSegments (cfg : ComponentConfig) (counts : List (String × Nat))
    (order : List String) : List String :=
  (posOpts counts order).filter (fun o => decide (isInside cfg counts o))

/-- The `outside_labels` list of step 2. -/
def outsideLabels (cfg : ComponentConfig) (counts : List (String × Nat))
    (order : List String) : List String :=
  (posOpts counts order).filter (fun o => decide (¬ isInside cfg counts o))

/-- Step 3 bump condition: `o in inside_segments and actual_w <
min_segment_width_pct`. -/
def needsBump (cfg : ComponentConfig) (counts : List (String × Nat)) (o : String) : Prop :=
  isInside cfg counts o ∧ actualWidth counts o < cfg.min_segment_width_pct

instance (cfg : ComponentConfig) (counts : List (String × Nat)) (o : String) :
    Decidable (needsBump cfg counts o) := by
  unfold needsBump; infer_instance

/-- Step 3 accumulator `adjustment_needed`. -/
def adjustmentNeeded (cfg : ComponentConfig) (counts : List (String × Nat))
    (order : List String) : ℚ :=
  ((posOpts counts order).map (fun o =>
    if needsBump cfg counts o then cfg.min_segment_width_pct - actualWidth counts o
    else 0)).sum

/-- Step 3 result: `adjusted_widths` before redistribution. -/
def adjustedPre (cfg : ComponentConfig) (counts : List (String × Nat)) (o : String) : ℚ :=
  if needsBump cfg counts o then cfg.min_segment_width_pct else actualWidth counts o

/-- Step 4: `reducible_total = sum(w for o, w in actual_widths.items() if w >=
min_segment_width_pct)`. -/
def reducibleTotal (cfg : ComponentConfig) (counts : List (String × Nat))
    (order : List String) : ℚ :=
  ((posOpts counts order).map (fun o =>
    if cfg.min_segment_width_pct ≤ actualWidth counts o then actualWidth counts o
    else 0)).sum

/-- Step 4 final value of `adjusted_widths[o]`: when a positive shortfall is
redistributed over a positive reducible total, every option whose actual
width reaches the floor is scaled by `1 - adjustment_needed/reducible_total`;
otherwise the step-3 value stands. -/
def adjustedWidth (cfg : ComponentConfig) (counts : List (String × Nat))
    (order : List String) (o : String) : ℚ :=
  if 0 < adjustmentNeeded cfg counts order ∧ 0 < reducibleTotal cfg counts order ∧
      cfg.min_segment_width_pct ≤ actualWidth counts o then
    actualWidth counts o * (1 - adjustmentNeeded cfg counts order / reducibleTotal cfg counts order)
  else adjustedPre cfg counts o

/-! ## Label width estimation (`estimate_label_width_px` / `_percent`) -/

/-- Model of `estimate_label_width_px(text, font_size_pt)`: ASCII characters
(code point < 128) count 0.6 of the font pixel size, others 1.0, plus a fixed
padding of 10; empty text is 0.  `1pt ≈ 1.33px`. -/
def estimate_label_width_px (text : String) (font_size_pt : ℚ) : ℚ :=
  if text = "" then 0
  else
    let font_size_px := font_size_pt * (133/100)
    let ascii_count : ℕ := (text.toList.filter (fun c => decide (c.toNat < 128))).length
    let japanese_count : ℕ := text.length - ascii_count
    (ascii_count : ℚ) * font_size_px * (6/10) + (japanese_count : ℚ) * font_size_px * 1 + 10

/-- Model of `estimate_label_width_percent(text, bar_width_px, font_size_pt)`. -/
def estimate_label_width_percent (text : String) (bar_width_px : ℚ) (font_size_pt : ℚ) : ℚ :=
  if bar_width_px ≤ 0 then 0
  else estimate_label_width_px text font_size_pt / bar_width_px * 100

/-! ## Collision resolution (`calculate_flexbox_positions`)

A candidate is the `(center_pos, text, option)` triple of the source.  The
width used for a candidate is `estimate_label_width_percent(text, 680.0)`
with the default font size 8: the source looks the width up through
`label_widths[labels_data.index((center, text, option))]`, and since the
estimate depends only on the text and tuple equality forces equal texts, that
lookup always yields the estimate of the candidate's own text. -/

/-- A positioned outside-label candidate `(center_pos, text, option)`. -/
abbrev Candidate : Type := ℚ × String × String

/-- The estimated width (in % of the bar) the algorithm uses for a candidate:
`estimate_label_width_percent(text, bar_width_px=680.0)` at font size 8. -/
def estW (c : Candidate) : ℚ :=
  estimate_label_width_percent c.2.1 680 8

/-- `OVERLAP_MARGIN = 2.0` (% points). -/
def OVERLAP_MARGIN : ℚ := 2

/-- The `[left_edge, right_edge]` pairs of `positions_and_widths`. -/
def flexEdges (labelsData : List Candidate) : List (ℚ × ℚ) :=
  labelsData.map (fun c => (c.1 - estW c / 2, c.1 + estW c / 2))

/-- Margin-aware non-overlap of two edge intervals, as tested by the double
loop: `right1 + OVERLAP_MARGIN <= left2 or right2 + OVERLAP_MARGIN <= left1`. -/
def noOverlapPair (a b : ℚ × ℚ) : Prop :=
  a.2 + OVERLAP_MARGIN ≤ b.1 ∨ b.2 + OVERLAP_MARGIN ≤ a.1

instance (a b : ℚ × ℚ) : Decidable (noOverlapPair a b) := by
  unfold noOverlapPair; infer_instance

/-- `has_significant_overlap`: some pair `i < j` fails the margin-aware
non-overlap test. -/
def hasSignificantOverlap (paw : List (ℚ × ℚ)) : Prop :=
  ¬ paw.Pairwise noOverlapPair

instance (paw : List (ℚ × ℚ)) : Decidable (hasSignificantOverlap paw) := by
  unfold hasSignificantOverlap; infer_instance

/-- One pass of the placement loop of `calculate_flexbox_positions`; the
`Option` argument carries the previous label's adjusted position and width
(`none` plays the role of `i == 0`).  The first label is clamped only on the
left (`max(width/2, original_center)`); every later label is pushed to at
least `prev + prev_width/2 + width/2 + OVERLAP_MARGIN`, kept at its original
center when possible, and clamped at the right boundary. -/
def flexPlaceLoop (avail : ℚ) : Option (ℚ × ℚ) → List Candidate → List Candidate
  | _, [] => []
  | none, c :: rest =>
      let w := estW c
      let pos := max (w / 2) c.1
      (pos, c.2) :: flexPlaceLoop avail (some (pos, w)) rest
  | some (prevPos, prevW), c :: rest =>
      let w := estW c
      let minPos := prevPos + prevW / 2 + w / 2 + OVERLAP_MARGIN
      let pos0 := max minPos c.1
      let pos := if avail < pos0 + w / 2 then avail - w / 2 else pos0
      (pos, c.2) :: flexPlaceLoop avail (some (pos, w)) rest

/-- Model of `calculate_flexbox_positions(labels_data, available_width_percent)`.
Zero or one candidates, and candidate lists without a significant overlap,
are returned unchanged; otherwise the candidates are stably sorted by
original center (Python's `sorted`, modelled by `insertionSort`) and walked
left to right by `flexPlaceLoop`. -/
def calculate_flexbox_positions (labelsData : List Candidate) (avail : ℚ) : List Candidate :=
  if labelsData.length ≤ 1 then labelsData
  else if hasSignificantOverlap (flexEdges labelsData) then
    flexPlaceLoop avail none (labelsData.insertionSort (fun a b => a.1 ≤ b.1))
  else labelsData

/-! ## Label placement planner (`calculate_outside_labels_html`) -/

/-- `label_pct = round((counts.get(o, 0) / S) * 100.0, 1)`. -/
def labelPct (counts : List (String × Nat)) (o : String) : ℚ :=
  pyRound1 ((((dget 0 counts o : ℕ) : ℚ) / (barS counts : ℚ)) * 100)

/-- The outside text of an outside-label option: the escaped option name
alone when `label_pct >= outside_label_with_inner_pct_threshold`, else the
name followed by the percentage. -/
def outsideText (cfg : ComponentConfig) (counts : List (String × Nat)) (o : String) : String :=
  if cfg.outside_label_with_inner_pct_threshold ≤ labelPct counts o then escape_html o
  else escape_html o ++ " " ++ formatFloat1 (labelPct counts o) ++ "%"

/-- `left_pos` of an outside-label option: the summed adjusted widths of the
options of `order` strictly before the first occurrence of `o` that are in
`adjusted_widths` (the loop breaks at `o`). -/
def leftPosLoop (cfg : ComponentConfig) (counts : List (String × Nat))
    (order : List String) (o : String) : ℚ :=
  (((order.takeWhile (fun p => decide (p ≠ o))).filter
      (fun p => 0 < dget 0 counts p)).map (adjustedWidth cfg counts order)).sum

/-- `center_pos = left_pos + adjusted_widths.get(o, 0) / 2`. -/
def centerPos (cfg : ComponentConfig) (counts : List (String × Nat))
    (order : List String) (o : String) : ℚ :=
  leftPosLoop cfg counts order o + adjustedWidth cfg counts order o / 2

/-- The `label_data` list of `(center_pos, label_text, option)` triples built
for the outside-label options. -/
def outsideLabelData (cfg : ComponentConfig) (counts : List (String × Nat))
    (order : List String) : List Candidate :=
  (outsideLabels cfg counts order).map (fun o =>
    (centerPos cfg counts order o, outsideText cfg counts o, o))

/-- Lane assignment over the positioned labels: indices `< n // 2` go to the
top lane, the rest to the bottom lane (both at layer 1). -/
def assignLanes (adjusted : List Candidate) : List Candidate × List Candidate :=
  (adjusted.take (adjusted.length / 2), adjusted.drop (adjusted.length / 2))

/-- The top-side layer dict: only layer 1 is ever populated. -/
def topLayers (adjusted : List Candidate) (k : ℕ) : List Candidate :=
  if k = 1 then (assignLanes adjusted).1 else []

/-- The bottom-side layer dict: only layer 1 is ever populated. -/
def bottomLayers (adjusted : List Candidate) (k : ℕ) : List Candidate :=
  if k = 1 then (assignLanes adjusted).2 else []

/-- `has_leader = (layer_num > 1)` of `render_label_layer`. -/
def layerHasLeaderLine (k : ℕ) : Bool :=
  decide (1 < k)

/-! ## Segment construction and layout assembly (`render_stacked_bar`) -/

/-- One segment of the stacked bar, as the structured content of the `seg`
div emitted in step 6 of `render_stacked_bar`. -/
structure Segment where
  option : String
  count : ℕ
  leftOffsetPct : ℚ
  widthPct : ℚ
  color : String
  title : String
  inlineLabel : Option String
deriving DecidableEq, Repr

/-- Step 6 loop over `order` with the running left offset: options absent
from `adjusted_widths` are skipped; inside segments get `"name pct%"` as the
inline label, outside segments get `"pct%"` when `label_pct` reaches the
inner threshold and no inline label otherwise. -/
def buildSegmentsGo (cfg : ComponentConfig) (counts : List (String × Nat))
    (order : List String) (colors : List (String × String)) :
    List String → ℚ → List Segment
  | [], _ => []
  | o :: rest, left =>
      if 0 < dget 0 counts o then
        let c := dget 0 counts o
        let w := adjustedWidth cfg counts order o
        let pct := labelPct counts o
        let seg : Segment :=
          { option := o
            count := c
            leftOffsetPct := left
            widthPct := w
            color := dget "#999" colors o
            title := escape_html o ++ " " ++ formatFloat1 pct ++ "%"
            inlineLabel :=
              if isInside cfg counts o then
                some (escape_html o ++ " " ++ formatFloat1 pct ++ "%")
              else if cfg.outside_label_with_inner_pct_threshold ≤ pct then
                some (formatFloat1 pct ++ "%")
              else none }
        seg :: buildSegmentsGo cfg counts order colors rest (left + w)
      else buildSegmentsGo cfg counts order colors rest left

/-- The segment list of one stacked bar. -/
def buildSegments (cfg : ComponentConfig) (counts : List (String × Nat))
    (order : List String) (colors : List (String × String)) : List Segment :=
  buildSegmentsGo cfg counts order colors order 0

/-- Renderer-agnostic content of the HTML string `render_stacked_bar`
returns: segments, the two outside-label lanes, and the right-side total. -/
structure BarLayout where
  segments : List Segment
  topLabels : List Candidate
  bottomLabels : List Candidate
  totalText : Option String
deriving DecidableEq, Repr

/-- Model of `render_stacked_bar(title, counts, order, colors, unit,
show_total_right)`: `none` models the empty string returned when `S == 0`;
otherwise the structured layout of the produced HTML. -/
def render_stacked_bar (cfg : ComponentConfig) (counts : List (String × Nat))
    (order : List String) (colors : List (String × String)) (unit : String)
    (showTotalRight : Bool) : Option BarLayout :=
  if barS counts = 0 then none
  else
    let adjusted := calculate_flexbox_positions (outsideLabelData cfg counts order) 100
    some
      { segments := buildSegments cfg counts order colors
        topLabels := topLayers adjusted 1
        bottomLabels := bottomLayers adjusted 1
        totalText := if showTotalRight then some (commaFmt (barS counts) ++ unit) else none }

/-! ## Response set extraction and aggregation -/

/-- Python `str.strip()` on a character list: drop whitespace from both
ends. -/
def trimChars (l : List Char) : List Char :=
  ((l.dropWhile Char.isWhitespace).reverse.dropWhile Char.isWhitespace).reverse

/-- `str.strip()` of a cell value. -/
def strip (s : String) : String :=
  String.mk (trimChars s.toList)

/-- Split a character list at every `'\r'` or `'\n'`.  `re.split(r"[\r\n]+",
s)` splits at runs of break characters; splitting at single characters
produces extra empty fragments, which the caller filters out, so the
surviving fragments coincide. -/
def splitBreaks : List Char → List (List Char)
  | [] => [[]]
  | c :: rest =>
      if c = '\r' ∨ c = '\n' then [] :: splitBreaks rest
      else
        match splitBreaks rest with
        | [] => [[c]]
        | f :: fs => (c :: f) :: fs

/-- Model of `cell_to_unique_set` on a non-missing cell: strip, split on line
breaks, strip the fragments, drop empties, deduplicate.  The Python result
is a `set`; it is modelled by this duplicate-free list (only membership in
it is ever used). -/
def cell_to_unique_set (val : String) : List String :=
  let s := strip val
  if s = "" then []
  else (((splitBreaks s.toList).map (fun f => String.mk (trimChars f))).filter
      (fun t => decide (t ≠ ""))).dedup

/-- The matched options of one cell: `[o for o in cell_to_unique_set(v) if o
in opt_set]`.  Python iterates the set in an unspecified order; the counts
and `S` built from `chosen` only depend on it as a set, so the model
enumerates it in `options` order. -/
def chosenOf (options : List String) (v : String) : List String :=
  options.filter (fun o => decide (o ∈ cell_to_unique_set v))

/-- One row step of `aggregate_group`: an empty `chosen` contributes nothing,
otherwise each matched option's count is incremented and `S` grows by the
number of matches. -/
def aggStep (options : List String) (acc : List (String × Nat) × Nat)
    (v : String) : List (String × Nat) × Nat :=
  let chosen := chosenOf options v
  if chosen.isEmpty then acc
  else (chosen.foldl incKey acc.1, acc.2 + chosen.length)

/-- Model of `aggregate_group(frame, qcol, options)`: the relevant column is
a list of optional cells; `dropna` drops the missing ones; counts start at
`{opt: 0 for opt in options}`. -/
def aggregate_group (column : List (Option String)) (options : List String) :
    List (String × Nat) × Nat :=
  (column.filterMap id).foldl (aggStep options) (options.map (fun o => (o, 0)), 0)

/-! ## Option ordering (`order_options_by_overall`) -/

/-- The sort key `(1 if o == "その他" else 0, -pct, o)` with `pct = 0` when
`S_overall == 0` and `counts[o]/S_overall` otherwise. -/
def optKey (counts : List (String × Nat)) (S_overall : ℕ) (o : String) : ℕ × ℚ × String :=
  ((if o = "その他" then 1 else 0),
   -(if S_overall = 0 then 0 else ((dget 0 counts o : ℕ) : ℚ) / (S_overall : ℚ)),
   o)

/-- Lexicographic comparison of sort keys, as Python compares tuples. -/
def lexKeyLe (x y : ℕ × ℚ × String) : Prop :=
  x.1 < y.1 ∨ (x.1 = y.1 ∧ (x.2.1 < y.2.1 ∨ (x.2.1 = y.2.1 ∧ x.2.2 ≤ y.2.2)))

instance (x y : ℕ × ℚ × String) : Decidable (lexKeyLe x y) := by
  unfold lexKeyLe; infer_instance

/-- The induced total preorder on options. -/
def optKeyLe (counts : List (String × Nat)) (S_overall : ℕ) (a b : String) : Prop :=
  lexKeyLe (optKey counts S_overall a) (optKey counts S_overall b)

instance (counts : List (String × Nat)) (S_overall : ℕ) (a b : String) :
    Decidable (optKeyLe counts S_overall a b) := by
  unfold optKeyLe; infer_instance

/-- Model of `order_options_by_overall(counts, S_overall)`: the dict keys,
stably sorted by the key (Python's `sorted`, modelled by `insertionSort`). -/
def order_options_by_overall (counts : List (String × Nat)) (S_overall : ℕ) : List String :=
  (counts.map Prod.fst).insertionSort (optKeyLe counts S_overall)

/-! ## Claim 1: the adjusted widths sum to 100 whenever `S > 0` -/

/-- Dropping the zero terms of a sum does not change it. -/
lemma sum_map_filter_of_zero (p : String → Bool) (f : String → ℚ) :
    ∀ l : List String, (∀ o ∈ l, p o = false → f o = 0) →
      ((l.filter p).map f).sum = (l.map f).sum := by
  intro l
  induction l with
  | nil => intro _; rfl
  | cons a t ih =>
      intro h
      by_cases hp : p a
      · simp only [List.filter_cons, hp, if_pos, List.map_cons, List.sum_cons]
        rw [ih (fun o ho ho' => h o (List.mem_cons_of_mem _ ho) ho')]
      · have hz : f a = 0 := h a (List.mem_cons_self _ _) (by simpa using hp)
        simp only [List.filter_cons, Bool.not_eq_true] at *
        rw [if_neg (by simpa using hp)]
        simp [ih (fun o ho ho' => h o (List.mem_cons_of_mem _ ho) ho'), hz]

/-- Summing `dget` over the (duplicate-free) key list of a dict recovers the
sum of its values. -/
lemma sum_dget_over_keys :
    ∀ d : List (String × ℕ), (d.map Prod.fst).Nodup →
      ((d.map Prod.fst).map (fun o => dget 0 d o)).sum = dictSum d := by
  intro d
  induction d with
  | nil => intro _; rfl
  | cons kv t ih =>
      intro hnd
      obtain ⟨k, v⟩ := kv
      simp only [List.map_cons, List.nodup_cons] at hnd
      obtain ⟨hk, hnd'⟩ := hnd
      simp only [List.map_cons, List.sum_cons]
      have h1 : dget 0 ((k, v) :: t) k = v := by simp [dget]
      have h2 : (t.map Prod.fst).map (fun o => dget 0 ((k, v) :: t) o)
          = (t.map Prod.fst).map (fun o => dget 0 t o) := by
        apply List.map_congr_left
        intro o ho
        have : k ≠ o := fun h => hk (h ▸ ho)
        simp [dget, this]
      rw [h1, h2, ih hnd']
      simp [dictSum]

/-- Pulling a constant factor out of a mapped sum. -/
lemma sum_map_mulConst (f : String → ℚ) (b : ℚ) :
    ∀ l : List String, (l.map (fun o => f o * b)).sum = (l.map f).sum * b := by
  intro l
  induction l with
  | nil => simp
  | cons a t ih => simp [ih, add_mul]

/-- Casting a sum of naturals to `ℚ` term by term. -/
lemma sum_map_natCast (f : String → ℕ) :
    ∀ l : List String, (l.map (fun o => ((f o : ℕ) : ℚ))).sum = (((l.map f).sum : ℕ) : ℚ) := by
  intro l
  induction l with
  | nil => simp
  | cons a t ih => simp [ih]

/-- With the default configuration the floor (1.0) lies below the inside
threshold (24.0), so the bump condition of step 3 is contradictory. -/
lemma not_needsBump_default (counts : List (String × Nat)) (o : String) :
    ¬ needsBump defaultConfig counts o := by
  rintro ⟨hin, hlt⟩
  exact hin (lt_of_lt_of_le hlt (by norm_num [defaultConfig]))

/-- Under the default configuration no shortfall is ever accumulated. -/
lemma adjustmentNeeded_default (counts : List (String × Nat)) (order : List String) :
    adjustmentNeeded defaultConfig counts order = 0 := by
  unfold adjustmentNeeded
  have : (posOpts counts order).map (fun o =>
      if needsBump defaultConfig counts o then
        defaultConfig.min_segment_width_pct - actualWidth counts o
      else 0) = (posOpts counts order).map (fun _ => (0 : ℚ)) := by
    apply List.map_congr_left
    intro o _
    rw [if_neg (not_needsBump_default counts o)]
  rw [this]
  simp

/-- Under the default configuration every adjusted width equals the actual
width. -/
lemma adjustedWidth_default (counts : List (String × Nat)) (order : List String)
    (o : String) :
    adjustedWidth defaultConfig counts order o = actualWidth counts o := by
  unfold adjustedWidth
  rw [if_neg]
  · unfold adjustedPre
    rw [if_neg (not_needsBump_default counts o)]
  · rintro ⟨h1, -, -⟩
    rw [adjustmentNeeded_default] at h1
    exact lt_irrefl 0 h1

/-- C1: for every counts dict with `S > 0` (keys given by `order`, as a dict
has no duplicate keys), the adjusted widths computed by `render_stacked_bar`
over the options with positive count sum to exactly 100 — in this exact
rational model the float claim “within epsilon” becomes an identity; the
minimum-width bump and the proportional redistribution are covered because
under the shipped configuration the shortfall is always zero
(`adjustmentNeeded_default`). -/
theorem claim1 (counts : List (String × Nat)) (order : List String)
    (hkeys : counts.map Prod.fst = order) (hnd : order.Nodup)
    (hS : 0 < barS counts) :
    ((posOpts counts order).map (adjustedWidth defaultConfig counts order)).sum = 100 := by
  have hcongr : (posOpts counts order).map (adjustedWidth defaultConfig counts order)
      = (posOpts counts order).map (actualWidth counts) := by
    apply List.map_congr_left
    intro o _
    exact adjustedWidth_default counts order o
  rw [hcongr]
  unfold posOpts
  rw [sum_map_filter_of_zero _ _ order (by
    intro o _ ho
    have : dget 0 counts o = 0 := by
      by_contra h
      have : 0 < dget 0 counts o := Nat.pos_of_ne_zero h
      simp [this] at ho
    simp [actualWidth, this])]
  have hW : order.map (actualWidth counts)
      = order.map (fun o => ((dget 0 counts o : ℕ) : ℚ) * (100 / (barS counts : ℚ))) := by
    apply List.map_congr_left
    intro o _
    unfold actualWidth
    ring
  rw [hW]
  rw [sum_map_mulConst, sum_map_natCast]
  have hsum : ((order.map (fun o => dget 0 counts o)).sum : ℕ) = barS counts := by
    have := sum_dget_over_keys counts (hkeys ▸ hnd)
    rw [hkeys] at this
    exact this
  rw [hsum]
  have hne : ((barS counts : ℕ) : ℚ) ≠ 0 := by
    exact_mod_cast Nat.pos_iff_ne_zero.mp hS
  field_simp

/-- Concrete instantiation of `claim1`: counts `{A:3, B:1}`. -/
theorem claim1_witness :
    ((posOpts [("A", 3), ("B", 1)] ["A", "B"]).map
      (adjustedWidth defaultConfig [("A", 3), ("B", 1)] ["A", "B"])).sum = 100 :=
  claim1 [("A", 3), ("B", 1)] ["A", "B"] rfl (by simp) (by norm_num [barS, dictSum])

/-! ## Claims 2 and 3: collision resolution -/

/-- Closed form of `estW` for a non-empty text with given ASCII count and
length. -/
lemma estW_eval (p : ℚ) (t y : String) (a n : ℕ) (h : ¬ t = "")
    (ha : (t.toList.filter fun c => decide (c.toNat < 128)).length = a)
    (hn : t.length = n) :
    estW (p, t, y)
      = ((a : ℚ) * (8 * (133/100)) * (6/10) + (((n - a : ℕ) : ℚ)) * (8 * (133/100)) * 1 + 10)
        / 680 * 100 := by
  simp only [estW, estimate_label_width_percent, estimate_label_width_px]
  rw [if_neg (by norm_num), if_neg h, ha, hn]

/-- Unfolding lemma for the margin constant. -/
lemma OVERLAP_MARGIN_val : OVERLAP_MARGIN = 2 := rfl

/-- The estimated width of a candidate is nonnegative. -/
lemma estW_nonneg (c : Candidate) : 0 ≤ estW c := by
  unfold estW estimate_label_width_percent
  rw [if_neg (by norm_num)]
  unfold estimate_label_width_px
  by_cases h : c.2.1 = ""
  · rw [if_pos h]; norm_num
  · rw [if_neg h]; positivity

/-- The text of a candidate determines its estimated width. -/
lemma estW_retuple (p : ℚ) (c : Candidate) : estW (p, c.2) = estW c := rfl

/-- Every position produced by the placement walk lies in `[0, 100]`,
provided the candidates' centers do and no estimated width exceeds 200. -/
lemma flexPlaceLoop_mem_bounds :
    ∀ (l : List Candidate) (prev : Option (ℚ × ℚ)),
      (∀ c ∈ l, (0 ≤ c.1 ∧ c.1 ≤ 100) ∧ estW c ≤ 200) →
      ∀ p ∈ flexPlaceLoop 100 prev l, 0 ≤ p.1 ∧ p.1 ≤ 100 := by
  intro l
  induction l with
  | nil =>
      intro prev _ p hp
      cases prev with
      | none => simp [flexPlaceLoop] at hp
      | some pr => simp [flexPlaceLoop] at hp
  | cons c rest ih =>
      intro prev h p hp
      have hc := (h c (List.mem_cons_self _ _)).1
      have hcw := (h c (List.mem_cons_self _ _)).2
      have hrest : ∀ x ∈ rest, (0 ≤ x.1 ∧ x.1 ≤ 100) ∧ estW x ≤ 200 :=
        fun x hx => h x (List.mem_cons_of_mem _ hx)
      cases prev with
      | none =>
          simp only [flexPlaceLoop] at hp
          rcases List.mem_cons.mp hp with rfl | hp'
          · constructor
            · exact le_trans hc.1 (le_max_right _ _)
            · exact max_le (by linarith [estW_nonneg c, hcw]) hc.2
          · exact ih _ hrest p hp'
      | some pr =>
          obtain ⟨pp, pw⟩ := pr
          simp only [flexPlaceLoop] at hp
          rcases List.mem_cons.mp hp with rfl | hp'
          · by_cases hcl :
              (100 : ℚ) < max (pp + pw / 2 + estW c / 2 + OVERLAP_MARGIN) c.1 + estW c / 2
            · rw [if_pos hcl]
              constructor
              · simp only []
                linarith [hcw]
              · simp only []
                linarith [estW_nonneg c]
            · rw [if_neg hcl]
              push_neg at hcl
              constructor
              · exact le_trans hc.1 (le_max_right _ _)
              · simp only []
                linarith [estW_nonneg c]
          · exact ih _ hrest p hp'

/-- Along the placement walk, each position is strictly above its
predecessor's unless the right-boundary clamp produced it (value
`100 - width/2`). -/
lemma flexPlaceLoop_chain :
    ∀ (l : List Candidate) (pp pw : ℚ) (x : String × String), 0 ≤ pw →
      List.Chain (fun p q => p.1 < q.1 ∨ q.1 = 100 - estW q / 2) (pp, x)
        (flexPlaceLoop 100 (some (pp, pw)) l) := by
  intro l
  induction l with
  | nil => intro pp pw x _; exact List.Chain.nil
  | cons c rest ih =>
      intro pp pw x hpw
      simp only [flexPlaceLoop]
      by_cases hcl :
          (100 : ℚ) < max (pp + pw / 2 + estW c / 2 + OVERLAP_MARGIN) c.1 + estW c / 2
      · rw [if_pos hcl]
        exact List.Chain.cons (Or.inr rfl) (ih _ _ _ (estW_nonneg c))
      · rw [if_neg hcl]
        refine List.Chain.cons (Or.inl ?_) (ih _ _ _ (estW_nonneg c))
        have h1 : pp + pw / 2 + estW c / 2 + OVERLAP_MARGIN
            ≤ max (pp + pw / 2 + estW c / 2 + OVERLAP_MARGIN) c.1 := le_max_left _ _
        have h2 : (0 : ℚ) < OVERLAP_MARGIN := by rw [OVERLAP_MARGIN_val]; norm_num
        simp only []
        linarith [estW_nonneg c]

/-- C2 (counterexample): first, two candidates with ascending centers 99 and
100 inside `[0, 100]`: the collision loop pushes the second past the right
boundary and the clamp drags it to 98.32…, strictly left of its
predecessor's adjusted position 99 — the original center order is not
preserved.  Second, a candidate with a 212-character label at center 0: its
adjusted position 100.25… lies outside `[0, 100]` even though every center
does. -/
theorem claim2_counterexample :
    (calculate_flexbox_positions [(99, "ab", "A"), (100, "cd", "B")] 100
        = [(99, "ab", "A"), (83577/850, "cd", "B")] ∧
      (83577/850 : ℚ) < 99 ∧ (99 : ℚ) < 100) ∧
      ((calculate_flexbox_positions
          [(0, String.mk (List.replicate 212 'a'), "A"), (1, "b", "B")] 100).head?.map
        Prod.fst = some (85213/850) ∧ (100 : ℚ) < 85213/850) := by
  constructor
  · have hwA : estW (99, "ab", "A") = 1423/425 := by
      rw [estW_eval 99 "ab" "A" 2 2 (by decide) rfl rfl]; norm_num
    have hwB : estW (100, "cd", "B") = 1423/425 := by
      rw [estW_eval 100 "cd" "B" 2 2 (by decide) rfl rfl]; norm_num
    refine ⟨?_, by norm_num, by norm_num⟩
    unfold calculate_flexbox_positions
    rw [if_neg (by norm_num), if_pos ?hov]
    case hov =>
      intro hpw
      simp only [flexEdges, List.map_cons, List.map_nil, List.pairwise_cons] at hpw
      have h := hpw.1 _ (List.mem_cons_self _ _)
      rw [hwA, hwB] at h
      unfold noOverlapPair at h
      rw [OVERLAP_MARGIN_val] at h
      rcases h with h | h <;> norm_num at h
    have hsort : (([(99, "ab", "A"), (100, "cd", "B")] : List Candidate).insertionSort
        (fun a b => a.1 ≤ b.1)) = [(99, "ab", "A"), (100, "cd", "B")] := by
      simp only [List.insertionSort, List.orderedInsert]
      rw [if_pos (by norm_num)]
    rw [hsort]
    norm_num [flexPlaceLoop, hwA, hwB, OVERLAP_MARGIN_val, max_def]
  · have hwA : estW (0, String.mk (List.replicate 212 'a'), "A") = 85213/425 := by
      rw [estW_eval 0 (String.mk (List.replicate 212 'a')) "A" 212 212 (by decide) rfl rfl]
      norm_num
    have hwB : estW (1, "b", "B") = 1024/425 := by
      rw [estW_eval 1 "b" "B" 1 1 (by decide) rfl rfl]; norm_num
    refine ⟨?_, by norm_num⟩
    unfold calculate_flexbox_positions
    rw [if_neg (by norm_num), if_pos ?hov2]
    case hov2 =>
      intro hpw
      simp only [flexEdges, List.map_cons, List.map_nil, List.pairwise_cons] at hpw
      have h := hpw.1 _ (List.mem_cons_self _ _)
      rw [hwA, hwB] at h
      unfold noOverlapPair at h
      rw [OVERLAP_MARGIN_val] at h
      rcases h with h | h <;> norm_num at h
    have hsort : (([(0, String.mk (List.replicate 212 'a'), "A"), (1, "b", "B")] :
        List Candidate).insertionSort (fun a b => a.1 ≤ b.1))
        = [(0, String.mk (List.replicate 212 'a'), "A"), (1, "b", "B")] := by
      simp only [List.insertionSort, List.orderedInsert]
      rw [if_pos (by norm_num)]
    rw [hsort]
    norm_num [flexPlaceLoop, hwA, hwB, OVERLAP_MARGIN_val, max_def]

/-- C2 (amended): provided every candidate's center lies in `[0, 100]` and
every estimated label width is at most 200 (so a label can fit at all), all
adjusted positions lie in `[0, 100]`; and either the input is returned
unchanged, or along the walk (candidates in ascending original-center order)
each adjusted position strictly exceeds its predecessor's except that a
candidate clamped at the right boundary (placed at `100 - width/2`) may fall
below it. -/
theorem claim2_amended (l : List Candidate)
    (hc : ∀ c ∈ l, 0 ≤ c.1 ∧ c.1 ≤ 100)
    (hw : ∀ c ∈ l, estW c ≤ 200) :
    (∀ p ∈ calculate_flexbox_positions l 100, 0 ≤ p.1 ∧ p.1 ≤ 100) ∧
      (calculate_flexbox_positions l 100 = l ∨
        List.Chain' (fun p q => p.1 < q.1 ∨ q.1 = 100 - estW q / 2)
          (calculate_flexbox_positions l 100)) := by
  unfold calculate_flexbox_positions
  by_cases h1 : l.length ≤ 1
  · rw [if_pos h1]
    exact ⟨fun p hp => hc p hp, Or.inl rfl⟩
  · rw [if_neg h1]
    by_cases h2 : hasSignificantOverlap (flexEdges l)
    · rw [if_pos h2]
      have hperm := List.perm_insertionSort (fun a b : Candidate => a.1 ≤ b.1) l
      have hall : ∀ c ∈ l.insertionSort (fun a b => a.1 ≤ b.1),
          (0 ≤ c.1 ∧ c.1 ≤ 100) ∧ estW c ≤ 200 := by
        intro c hcmem
        have := hperm.mem_iff.mp hcmem
        exact ⟨hc c this, hw c this⟩
      refine ⟨flexPlaceLoop_mem_bounds _ none hall, Or.inr ?_⟩
      cases hs : l.insertionSort (fun a b => a.1 ≤ b.1) with
      | nil => simp [flexPlaceLoop]
      | cons c rest =>
          simp only [flexPlaceLoop]
          show List.Chain _ _ _
          exact flexPlaceLoop_chain rest _ _ _ (estW_nonneg c)
    · rw [if_neg h2]
      exact ⟨fun p hp => hc p hp, Or.inl rfl⟩

/-- Concrete instantiation of `claim2_amended`: two short labels at centers
10 and 50. -/
theorem claim2_witness :
    (∀ p ∈ calculate_flexbox_positions [((10 : ℚ), "a", "a"), (50, "b", "b")] 100,
        0 ≤ p.1 ∧ p.1 ≤ 100) ∧
      (calculate_flexbox_positions [((10 : ℚ), "a", "a"), (50, "b", "b")] 100
          = [((10 : ℚ), "a", "a"), (50, "b", "b")] ∨
        List.Chain' (fun p q => p.1 < q.1 ∨ q.1 = 100 - estW q / 2)
          (calculate_flexbox_positions [((10 : ℚ), "a", "a"), (50, "b", "b")] 100)) := by
  refine claim2_amended _ ?_ ?_
  · intro c hcmem
    rcases List.mem_cons.mp hcmem with rfl | hcmem
    · norm_num
    · rcases List.mem_cons.mp hcmem with rfl | hcmem
      · norm_num
      · simp at hcmem
  · intro c hcmem
    rcases List.mem_cons.mp hcmem with rfl | hcmem
    · rw [estW_eval 10 "a" "a" 1 1 (by decide) rfl rfl]; norm_num
    · rcases List.mem_cons.mp hcmem with rfl | hcmem
      · rw [estW_eval 50 "b" "b" 1 1 (by decide) rfl rfl]; norm_num
      · simp at hcmem

/-- C3: `calculate_flexbox_positions` is the identity whenever there are at
most one candidate or no pair overlaps within the 2.0-point margin. -/
theorem claim3 (labelsData : List Candidate)
    (h : labelsData.length ≤ 1 ∨ ¬ hasSignificantOverlap (flexEdges labelsData)) :
    calculate_flexbox_positions labelsData 100 = labelsData := by
  unfold calculate_flexbox_positions
  by_cases h1 : labelsData.length ≤ 1
  · rw [if_pos h1]
  · rw [if_neg h1]
    rcases h with h | h
    · exact absurd h h1
    · rw [if_neg h]

/-- Concrete instantiation of `claim3`: two well-separated candidates are
returned unchanged. -/
theorem claim3_witness :
    calculate_flexbox_positions [((10 : ℚ), "a", "a"), (90, "b", "b")] 100
      = [((10 : ℚ), "a", "a"), (90, "b", "b")] := by
  refine claim3 _ (Or.inr ?_)
  have hwA : estW ((10 : ℚ), "a", "a") = 1024/425 := by
    rw [estW_eval 10 "a" "a" 1 1 (by decide) rfl rfl]; norm_num
  have hwB : estW ((90 : ℚ), "b", "b") = 1024/425 := by
    rw [estW_eval 90 "b" "b" 1 1 (by decide) rfl rfl]; norm_num
  intro hov
  apply hov
  simp only [flexEdges, List.map_cons, List.map_nil, List.pairwise_cons]
  refine ⟨?_, by simp⟩
  intro e he
  simp only [List.mem_cons, List.not_mem_nil, or_false] at he
  subst he
  unfold noOverlapPair OVERLAP_MARGIN
  rw [hwA, hwB]
  left
  norm_num

/-! ## Claim 4: the concrete scenario `{A:76, B:20, C:4}` -/

/-- Field value of the default configuration. -/
lemma defaultConfig_inner : defaultConfig.outside_label_with_inner_pct_threshold = 5 := rfl

/-- Unfolding lemma for `formatFloat1` once the floor is known. -/
lemma formatFloat1_eval (q : ℚ) (n : ℤ) (h : ⌊q * 10⌋ = n) :
    formatFloat1 q = toString (n / 10) ++ "." ++ toString (n % 10).natAbs := by
  simp only [formatFloat1, h]

/-- C4 (counterexample): for `{A:76, B:20, C:4}` the code renders the
percentage of C through Python's float formatting as `4.0`, so the outside
text is `"C 4.0%"`, not `"C 4%"` as the claim states. -/
theorem claim4_counterexample :
    outsideText defaultConfig [("A", 76), ("B", 20), ("C", 4)] "C" = "C 4.0%" ∧
      ("C 4.0%" : String) ≠ "C 4%" := by
  constructor
  · have hc : dget 0 [("A", 76), ("B", 20), ("C", 4)] "C" = 4 := rfl
    have hs : barS [("A", 76), ("B", 20), ("C", 4)] = 100 := rfl
    have hpC : labelPct [("A", 76), ("B", 20), ("C", 4)] "C" = 4 := by
      unfold labelPct
      rw [hc, hs]
      norm_num [pyRound1]
    unfold outsideText
    rw [hpC, if_neg (by norm_num [defaultConfig]),
      formatFloat1_eval 4 40 (by norm_num)]
    rfl
  · decide

/-- C4 (amended): for counts `{A:76, B:20, C:4}` with `S = 100` the widths
are A=76%, B=20%, C=4%; A is classified inside with inline label
`"A 76.0%"`; B is outside with outside text exactly `"B"` and its segment
showing only `"20.0%"` inline; C is outside with outside text exactly
`"C 4.0%"` and no inline label (the percentages carry Python's one-decimal
float rendering). -/
theorem claim4_amended :
    insideSegments defaultConfig [("A", 76), ("B", 20), ("C", 4)] ["A", "B", "C"] = ["A"] ∧
      outsideLabels defaultConfig [("A", 76), ("B", 20), ("C", 4)] ["A", "B", "C"]
        = ["B", "C"] ∧
      (buildSegments defaultConfig [("A", 76), ("B", 20), ("C", 4)] ["A", "B", "C"]
          [("A", "#4c8bf5"), ("B", "#f58b4c"), ("C", "#57b26a")]).map
        (fun s => (s.option, s.widthPct, s.inlineLabel))
        = [("A", (76 : ℚ), some "A 76.0%"), ("B", 20, some "20.0%"), ("C", 4, none)] ∧
      outsideText defaultConfig [("A", 76), ("B", 20), ("C", 4)] "B" = "B" ∧
      outsideText defaultConfig [("A", 76), ("B", 20), ("C", 4)] "C" = "C 4.0%" := by
  have hs : barS [("A", 76), ("B", 20), ("C", 4)] = 100 := rfl
  have hawA : actualWidth [("A", 76), ("B", 20), ("C", 4)] "A" = 76 := by
    unfold actualWidth
    rw [show dget 0 [("A", 76), ("B", 20), ("C", 4)] "A" = 76 from rfl, hs]
    norm_num
  have hawB : actualWidth [("A", 76), ("B", 20), ("C", 4)] "B" = 20 := by
    unfold actualWidth
    rw [show dget 0 [("A", 76), ("B", 20), ("C", 4)] "B" = 20 from rfl, hs]
    norm_num
  have hawC : actualWidth [("A", 76), ("B", 20), ("C", 4)] "C" = 4 := by
    unfold actualWidth
    rw [show dget 0 [("A", 76), ("B", 20), ("C", 4)] "C" = 4 from rfl, hs]
    norm_num
  have hpA : labelPct [("A", 76), ("B", 20), ("C", 4)] "A" = 76 := by
    unfold labelPct
    rw [show dget 0 [("A", 76), ("B", 20), ("C", 4)] "A" = 76 from rfl, hs]
    norm_num [pyRound1]
  have hpB : labelPct [("A", 76), ("B", 20), ("C", 4)] "B" = 20 := by
    unfold labelPct
    rw [show dget 0 [("A", 76), ("B", 20), ("C", 4)] "B" = 20 from rfl, hs]
    norm_num [pyRound1]
  have hpC : labelPct [("A", 76), ("B", 20), ("C", 4)] "C" = 4 := by
    unfold labelPct
    rw [show dget 0 [("A", 76), ("B", 20), ("C", 4)] "C" = 4 from rfl, hs]
    norm_num [pyRound1]
  have hIA : isInside defaultConfig [("A", 76), ("B", 20), ("C", 4)] "A" := by
    unfold isInside
    rw [hawA]
    norm_num [defaultConfig]
  have hIB : ¬ isInside defaultConfig [("A", 76), ("B", 20), ("C", 4)] "B" := by
    intro h
    exact h (by rw [hawB]; norm_num [defaultConfig])
  have hIC : ¬ isInside defaultConfig [("A", 76), ("B", 20), ("C", 4)] "C" := by
    intro h
    exact h (by rw [hawC]; norm_num [defaultConfig])
  have hposE : posOpts [("A", 76), ("B", 20), ("C", 4)] ["A", "B", "C"] = ["A", "B", "C"] := rfl
  have hf76 : formatFloat1 76 = "76.0" := by
    rw [formatFloat1_eval 76 760 (by norm_num)]; rfl
  have hf20 : formatFloat1 20 = "20.0" := by
    rw [formatFloat1_eval 20 200 (by norm_num)]; rfl
  have hf4 : formatFloat1 4 = "4.0" := by
    rw [formatFloat1_eval 4 40 (by norm_num)]; rfl
  have hAWA := adjustedWidth_default [("A", 76), ("B", 20), ("C", 4)] ["A", "B", "C"] "A"
  have hAWB := adjustedWidth_default [("A", 76), ("B", 20), ("C", 4)] ["A", "B", "C"] "B"
  have hAWC := adjustedWidth_default [("A", 76), ("B", 20), ("C", 4)] ["A", "B", "C"] "C"
  refine ⟨?_, ?_, ?_, ?_, ?_⟩
  · unfold insideSegments
    rw [hposE]
    simp [hIA, hIB, hIC]
  · unfold outsideLabels
    rw [hposE]
    simp [hIA, hIB, hIC]
  · have hlabA : escape_html "A" ++ " " ++ "76.0" ++ "%" = "A 76.0%" := rfl
    have hlab20 : ("20.0" ++ "%" : String) = "20.0%" := rfl
    have hgA : dget 0 [("A", 76), ("B", 20), ("C", 4)] "A" = 76 := rfl
    have hgB : dget 0 [("A", 76), ("B", 20), ("C", 4)] "B" = 20 := rfl
    have hgC : dget 0 [("A", 76), ("B", 20), ("C", 4)] "C" = 4 := rfl
    unfold buildSegments
    norm_num [buildSegmentsGo, hgA, hgB, hgC, hAWA, hAWB, hAWC, hawA, hawB, hawC,
      hpA, hpB, hpC, hIA, hIB, hIC, hf76, hf20, hf4, defaultConfig_inner, hlabA, hlab20]
  · unfold outsideText
    rw [hpB, if_pos (by norm_num [defaultConfig])]
    rfl
  · unfold outsideText
    rw [hpC, if_neg (by norm_num [defaultConfig]), hf4]
    rfl

/-! ## Claim 5: `order_options_by_overall` -/

/-- The lexicographic key comparison is total. -/
lemma lexKeyLe_total (x y : ℕ × ℚ × String) : lexKeyLe x y ∨ lexKeyLe y x := by
  unfold lexKeyLe
  rcases lt_trichotomy x.1 y.1 with h | h | h
  · exact Or.inl (Or.inl h)
  · rcases lt_trichotomy x.2.1 y.2.1 with h2 | h2 | h2
    · exact Or.inl (Or.inr ⟨h, Or.inl h2⟩)
    · rcases le_total x.2.2 y.2.2 with h3 | h3
      · exact Or.inl (Or.inr ⟨h, Or.inr ⟨h2, h3⟩⟩)
      · exact Or.inr (Or.inr ⟨h.symm, Or.inr ⟨h2.symm, h3⟩⟩)
    · exact Or.inr (Or.inr ⟨h.symm, Or.inl h2⟩)
  · exact Or.inr (Or.inl h)

/-- The lexicographic key comparison is transitive. -/
lemma lexKeyLe_trans (x y z : ℕ × ℚ × String) :
    lexKeyLe x y → lexKeyLe y z → lexKeyLe x z := by
  unfold lexKeyLe
  rintro (h1 | ⟨e1, h1⟩) (h2 | ⟨e2, h2⟩)
  · exact Or.inl (lt_trans h1 h2)
  · exact Or.inl (by rw [← e2]; exact h1)
  · exact Or.inl (by rw [e1]; exact h2)
  · refine Or.inr ⟨e1.trans e2, ?_⟩
    rcases h1 with h1 | ⟨f1, h1⟩ <;> rcases h2 with h2 | ⟨f2, h2⟩
    · exact Or.inl (lt_trans h1 h2)
    · exact Or.inl (by rw [← f2]; exact h1)
    · exact Or.inl (by rw [f1]; exact h2)
    · exact Or.inr ⟨f1.trans f2, le_trans h1 h2⟩

/-- In a list that is pairwise related left-to-right, every member is the
last element or relates to it. -/
lemma pairwise_rel_getLast {α : Type} {r : α → α → Prop} :
    ∀ (l : List α) (x y : α), l.Pairwise r → x ∈ l → l.getLast? = some y →
      x = y ∨ r x y := by
  intro l
  induction l with
  | nil => intro x y _ hx; exact absurd hx (List.not_mem_nil x)
  | cons a t ih =>
      intro x y hpw hx hlast
      cases t with
      | nil =>
          simp only [List.getLast?_singleton, Option.some.injEq] at hlast
          simp only [List.mem_singleton] at hx
          exact Or.inl (hx.trans hlast)
      | cons b t' =>
          rw [List.getLast?_cons_cons] at hlast
          rcases List.mem_cons.mp hx with rfl | hx'
          · right
            have hmem : y ∈ b :: t' := List.mem_of_mem_getLast? hlast
            exact (List.pairwise_cons.mp hpw).1 _ hmem
          · exact ih x y (List.pairwise_cons.mp hpw).2 hx' hlast

/-- Anything the `"その他"` sentinel sorts no later than is the sentinel
itself: its key's first component is 1, every other option's is 0. -/
lemma otherKeyLe (counts : List (String × Nat)) (S_overall : ℕ) (b : String) :
    optKeyLe counts S_overall "その他" b → b = "その他" := by
  intro h
  by_contra hb
  unfold optKeyLe optKey lexKeyLe at h
  rw [if_pos rfl, if_neg hb] at h
  simp at h

/-- The alphabetical-with-`"その他"`-last order the key collapses to when
`S == 0`. -/
def alphaOtherLastLe (a b : String) : Prop :=
  (a ≠ "その他" ∧ b = "その他") ∨ ((a = "その他" ↔ b = "その他") ∧ a ≤ b)

/-- With `S == 0` all shares are 0 and the key order is exactly
alphabetical-with-`"その他"`-last. -/
lemma optKeyLe_zero (counts : List (String × Nat)) (a b : String) :
    optKeyLe counts 0 a b ↔ alphaOtherLastLe a b := by
  by_cases ha : a = "その他" <;> by_cases hb : b = "その他" <;>
    simp [optKeyLe, optKey, lexKeyLe, alphaOtherLastLe, ha, hb]

/-- C5: `order_options_by_overall` returns a permutation of the dict keys
that is sorted (pairwise, ascending) by the key
`(isOther, -count/S, option)`; `"その他"`, when present, always ends up
last; and when `S == 0` the order is alphabetical-with-`"その他"`-last. -/
theorem claim5 (counts : List (String × Nat)) (S_overall : ℕ) :
    (order_options_by_overall counts S_overall).Perm (counts.map Prod.fst) ∧
      (order_options_by_overall counts S_overall).Pairwise (optKeyLe counts S_overall) ∧
      ("その他" ∈ counts.map Prod.fst →
        (order_options_by_overall counts S_overall).getLast? = some "その他") ∧
      (S_overall = 0 →
        (order_options_by_overall counts S_overall).Pairwise alphaOtherLastLe) := by
  letI : IsTotal String (optKeyLe counts S_overall) := ⟨fun a b => lexKeyLe_total _ _⟩
  letI : IsTrans String (optKeyLe counts S_overall) := ⟨fun a b c => lexKeyLe_trans _ _ _⟩
  have hperm : (order_options_by_overall counts S_overall).Perm (counts.map Prod.fst) :=
    List.perm_insertionSort _ _
  have hsorted : (order_options_by_overall counts S_overall).Pairwise
      (optKeyLe counts S_overall) :=
    List.sorted_insertionSort _ _
  refine ⟨hperm, hsorted, ?_, ?_⟩
  · intro hmem
    have hx : "その他" ∈ order_options_by_overall counts S_overall :=
      hperm.mem_iff.mpr hmem
    have hne : order_options_by_overall counts S_overall ≠ [] :=
      List.ne_nil_of_mem hx
    obtain ⟨y, hy⟩ := Option.ne_none_iff_exists'.mp
      (fun hnil => hne (List.getLast?_eq_none_iff.mp hnil))
    rcases pairwise_rel_getLast _ _ _ hsorted hx hy with h | h
    · rw [hy, ← h]
    · rw [hy, otherKeyLe counts S_overall y h]
  · intro hS
    subst hS
    exact hsorted.imp (fun h => (optKeyLe_zero counts _ _).mp h)

/-- Concrete instantiation of `claim5`: counts `{B:1, その他:5, A:1}` with
`S = 0` forced — `"その他"` is last and the order is alphabetical. -/
theorem claim5_witness :
    (order_options_by_overall [("B", 1), ("その他", 5), ("A", 1)] 0).getLast?
        = some "その他" ∧
      (order_options_by_overall [("B", 1), ("その他", 5), ("A", 1)] 0).Pairwise
        alphaOtherLastLe :=
  ⟨(claim5 [("B", 1), ("その他", 5), ("A", 1)] 0).2.2.1 (by decide),
   (claim5 [("B", 1), ("その他", 5), ("A", 1)] 0).2.2.2 rfl⟩

/-! ## Claims 6, 8 and 9: empty layout, lane assignment, determinism -/

/-- C6: when `S == 0` (all counts zero) `render_stacked_bar` returns the
empty layout — modelled by `none`, the structured value of the empty string
the source returns — with no segments and no labels; the embedding is a
total function, so no exception can occur, and the `S == 0` guard is passed
before any division by `S`. -/
theorem claim6 (cfg : ComponentConfig) (counts : List (String × Nat))
    (order : List String) (colors : List (String × String)) (unit : String)
    (showTotalRight : Bool) (h : barS counts = 0) :
    render_stacked_bar cfg counts order colors unit showTotalRight = none := by
  unfold render_stacked_bar
  rw [if_pos h]

/-- Concrete instantiation of `claim6`: a single option with count 0. -/
theorem claim6_witness :
    render_stacked_bar defaultConfig [("A", 0)] ["A"] [] "人" true = none :=
  claim6 defaultConfig [("A", 0)] ["A"] [] "人" true rfl

/-- C8: the lane assignment sends the first `⌊n/2⌋` positioned labels to the
top lane and the remaining `⌈n/2⌉` to the bottom lane, all at layer 1; no
layer `≥ 2` is ever populated, and since leader lines are rendered only for
layers `> 1`, no label ever receives one. -/
theorem claim8 (adjusted : List Candidate) :
    topLayers adjusted 1 = adjusted.take (adjusted.length / 2) ∧
      (topLayers adjusted 1).length = adjusted.length / 2 ∧
      (bottomLayers adjusted 1).length = (adjusted.length + 1) / 2 ∧
      (∀ k, 2 ≤ k → topLayers adjusted k = [] ∧ bottomLayers adjusted k = []) ∧
      (∀ k, layerHasLeaderLine k = true →
        topLayers adjusted k = [] ∧ bottomLayers adjusted k = []) := by
  refine ⟨rfl, ?_, ?_, ?_, ?_⟩
  · simp only [topLayers, if_pos, assignLanes, List.length_take]
    omega
  · simp only [bottomLayers, if_pos, assignLanes, List.length_drop]
    omega
  · intro k hk
    constructor
    · unfold topLayers
      rw [if_neg (by omega)]
    · unfold bottomLayers
      rw [if_neg (by omega)]
  · intro k hk
    unfold layerHasLeaderLine at hk
    have h2 : 1 < k := of_decide_eq_true hk
    constructor
    · unfold topLayers
      rw [if_neg (by omega)]
    · unfold bottomLayers
      rw [if_neg (by omega)]

/-- Concrete instantiation of `claim8`: layer 2 is empty, so the leader-line
layer of a one-label bar holds nothing. -/
theorem claim8_witness :
    topLayers [((50 : ℚ), "x", "x")] 2 = [] ∧
      bottomLayers [((50 : ℚ), "x", "x")] 2 = [] :=
  (claim8 [((50 : ℚ), "x", "x")]).2.2.2.1 2 (by norm_num)

/-- C9: the full pipeline is a pure function of `(counts, order, colors,
unit, show_total_right)`: two calls on equal inputs produce bit-identical
layouts.  The embedded pipeline reads no state beyond its arguments (the
configuration constants enter through `cfg`), which is what this congruence
records. -/
theorem claim9 (cfg : ComponentConfig) (c1 c2 : List (String × Nat))
    (o1 o2 : List String) (k1 k2 : List (String × String)) (u1 u2 : String)
    (b1 b2 : Bool) (hc : c1 = c2) (ho : o1 = o2) (hk : k1 = k2) (hu : u1 = u2)
    (hb : b1 = b2) :
    render_stacked_bar cfg c1 o1 k1 u1 b1 = render_stacked_bar cfg c2 o2 k2 u2 b2 := by
  subst hc; subst ho; subst hk; subst hu; subst hb; rfl

/-- Concrete instantiation of `claim9`. -/
theorem claim9_witness :
    render_stacked_bar defaultConfig [("A", 2), ("B", 1)] ["A", "B"]
        [("A", "#4c8bf5")] "人" true
      = render_stacked_bar defaultConfig [("A", 2), ("B", 1)] ["A", "B"]
        [("A", "#4c8bf5")] "人" true :=
  claim9 defaultConfig _ _ _ _ _ _ _ _ _ _ rfl rfl rfl rfl rfl

/-! ## Claims 7 and 10: the aggregator -/

/-- `incKey` does not change the key list. -/
lemma incKey_keys (d : List (String × Nat)) (k : String) :
    (incKey d k).map Prod.fst = d.map Prod.fst := by
  unfold incKey
  rw [List.map_map]
  apply List.map_congr_left
  intro p _
  by_cases h : p.1 = k <;> simp [h]

/-- Unfolding `incKey` over a cons cell. -/
lemma incKey_cons (a1 : String) (a2 : ℕ) (t : List (String × Nat)) (k : String) :
    incKey ((a1, a2) :: t) k
      = (if a1 = k then (a1, a2 + 1) else (a1, a2)) :: incKey t k := rfl

/-- A key different from the head key is in a cons dict's key list iff it is
in the tail's. -/
lemma mem_keys_cons_iff (a1 : String) (a2 : ℕ) (t : List (String × Nat)) (o : String)
    (hne : ¬ o = a1) :
    (o ∈ ((a1, a2) :: t).map Prod.fst) = (o ∈ t.map Prod.fst) := by
  simp [List.mem_cons, hne]

/-- Reading a key after `incKey`: present matching keys gain one, everything
else is unchanged. -/
lemma dget_incKey :
    ∀ (d : List (String × Nat)) (k o : String),
      dget 0 (incKey d k) o
        = if o = k ∧ o ∈ d.map Prod.fst then dget 0 d o + 1 else dget 0 d o := by
  intro d k o
  induction d with
  | nil => simp [incKey, dget]
  | cons a t ih =>
      obtain ⟨a1, a2⟩ := a
      rw [incKey_cons]
      by_cases hak : a1 = k <;> by_cases hao : a1 = o
      · subst hak; subst hao
        rw [if_pos rfl]
        have hL : dget 0 ((a1, a2 + 1) :: incKey t a1) a1 = a2 + 1 := by simp [dget]
        have hR : dget 0 ((a1, a2) :: t) a1 = a2 := by simp [dget]
        rw [hL, if_pos ⟨rfl, by simp⟩, hR]
      · subst hak
        rw [if_pos rfl]
        have hL : dget 0 ((a1, a2 + 1) :: incKey t a1) o = dget 0 (incKey t a1) o := by
          simp [dget, hao]
        have hR : ∀ x : List (String × Nat), dget 0 ((a1, a2) :: x) o = dget 0 x o := by
          intro x; simp [dget, hao]
        have hne : ¬ o = a1 := fun h => hao h.symm
        rw [hL, hR, ih]
        simp only [mem_keys_cons_iff a1 a2 t o hne]
      · subst hao
        rw [if_neg hak]
        have hL : dget 0 ((a1, a2) :: incKey t k) a1 = a2 := by simp [dget]
        have hR : dget 0 ((a1, a2) :: t) a1 = a2 := by simp [dget]
        rw [hL, hR, if_neg (fun h => hak h.1)]
      · rw [if_neg hak]
        have hL : dget 0 ((a1, a2) :: incKey t k) o = dget 0 (incKey t k) o := by
          simp [dget, hao]
        have hR : dget 0 ((a1, a2) :: t) o = dget 0 t o := by simp [dget, hao]
        have hne : ¬ o = a1 := fun h => hao h.symm
        rw [hL, hR, ih]
        simp only [mem_keys_cons_iff a1 a2 t o hne]

/-- Folding `incKey` over a duplicate-free list of present keys adds exactly
one to each of them. -/
lemma dget_foldl_incKey :
    ∀ (chosen : List String) (d : List (String × Nat)), chosen.Nodup →
      (∀ c ∈ chosen, c ∈ d.map Prod.fst) → ∀ o,
      dget 0 (chosen.foldl incKey d) o = dget 0 d o + (if o ∈ chosen then 1 else 0) := by
  intro chosen
  induction chosen with
  | nil => intro d _ _ o; simp
  | cons c rest ih =>
      intro d hnd hmem o
      simp only [List.foldl_cons]
      have hkeys : (incKey d c).map Prod.fst = d.map Prod.fst := incKey_keys d c
      have hrest : ∀ x ∈ rest, x ∈ (incKey d c).map Prod.fst := by
        intro x hx
        rw [hkeys]
        exact hmem x (List.mem_cons_of_mem _ hx)
      rw [ih (incKey d c) (List.nodup_cons.mp hnd).2 hrest o, dget_incKey]
      by_cases ho : o = c
      · subst ho
        rw [if_pos ⟨rfl, hmem o (List.mem_cons_self _ _)⟩]
        have : o ∉ rest := (List.nodup_cons.mp hnd).1
        simp [this]
      · rw [if_neg (fun h => ho h.1)]
        simp [ho]

/-- `incKey` with an absent key is the identity. -/
lemma incKey_not_mem :
    ∀ (d : List (String × Nat)) (k : String), k ∉ d.map Prod.fst → incKey d k = d := by
  intro d k
  induction d with
  | nil => intro _; rfl
  | cons a t ih =>
      intro h
      obtain ⟨a1, a2⟩ := a
      simp only [List.map_cons, List.mem_cons] at h
      push_neg at h
      rw [incKey_cons, if_neg (fun hh => h.1 hh.symm), ih h.2]

/-- `incKey` on a dict with duplicate-free keys adds one to the value sum
when the key is present. -/
lemma dictSum_incKey :
    ∀ (d : List (String × Nat)) (k : String), (d.map Prod.fst).Nodup →
      k ∈ d.map Prod.fst → dictSum (incKey d k) = dictSum d + 1 := by
  intro d
  induction d with
  | nil => intro k _ hk; simp at hk
  | cons a t ih =>
      intro k hnd hk
      obtain ⟨a1, a2⟩ := a
      simp only [List.map_cons, List.nodup_cons] at hnd
      rw [incKey_cons]
      simp only [List.map_cons, List.mem_cons] at hk
      rcases hk with rfl | hk'
      · rw [if_pos rfl, incKey_not_mem t k hnd.1]
        simp [dictSum]
        omega
      · rw [if_neg (fun hh => hnd.1 (by rw [hh]; exact hk'))]
        simp only [dictSum, List.map_cons, List.sum_cons]
        have := ih k hnd.2 hk'
        simp only [dictSum] at this
        rw [this]
        omega

/-- Folding `incKey` over present keys grows the value sum by their number. -/
lemma dictSum_foldl_incKey :
    ∀ (chosen : List String) (d : List (String × Nat)), (d.map Prod.fst).Nodup →
      (∀ c ∈ chosen, c ∈ d.map Prod.fst) →
      dictSum (chosen.foldl incKey d) = dictSum d + chosen.length := by
  intro chosen
  induction chosen with
  | nil => intro d _ _; simp
  | cons c rest ih =>
      intro d hnd hmem
      simp only [List.foldl_cons, List.length_cons]
      have hkeys := incKey_keys d c
      rw [ih (incKey d c) (hkeys ▸ hnd) (by
        intro x hx
        rw [hkeys]
        exact hmem x (List.mem_cons_of_mem _ hx)),
        dictSum_incKey d c hnd (hmem c (List.mem_cons_self _ _))]
      omega

/-- Reading an absent key yields 0. -/
lemma dget_not_mem :
    ∀ (d : List (String × Nat)) (o : String), o ∉ d.map Prod.fst → dget 0 d o = 0 := by
  intro d o h
  induction d with
  | nil => rfl
  | cons a t ih =>
      simp only [List.map_cons, List.mem_cons] at h
      push_neg at h
      simp only [dget]
      rw [if_neg (fun hh => h.1 hh.symm)]
      exact ih h.2

/-- Folding `incKey` never changes the key list. -/
lemma foldl_incKey_keys :
    ∀ (ch : List String) (d : List (String × Nat)),
      (ch.foldl incKey d).map Prod.fst = d.map Prod.fst := by
  intro ch
  induction ch with
  | nil => intro d; rfl
  | cons x xs ihx =>
      intro d
      simp only [List.foldl_cons]
      rw [ihx, incKey_keys]

/-- The aggregation fold keeps the key list equal to `options` and keeps the
value sum in lockstep with the running `S`. -/
lemma agg_fold (options : List String) (hnd : options.Nodup) :
    ∀ (cells : List String) (d : List (String × Nat)) (n : ℕ),
      d.map Prod.fst = options →
      ((cells.foldl (aggStep options) (d, n)).1.map Prod.fst = options ∧
        dictSum (cells.foldl (aggStep options) (d, n)).1 + n
          = dictSum d + (cells.foldl (aggStep options) (d, n)).2) := by
  intro cells
  induction cells with
  | nil => intro d n h; exact ⟨h, rfl⟩
  | cons v rest ih =>
      intro d n h
      simp only [List.foldl_cons]
      by_cases hch : (chosenOf options v).isEmpty
      · rw [show aggStep options (d, n) v = (d, n) from by unfold aggStep; rw [if_pos hch]]
        exact ih d n h
      · rw [show aggStep options (d, n) v
            = ((chosenOf options v).foldl incKey d, n + (chosenOf options v).length) from by
          unfold aggStep; rw [if_neg hch]]
        have hsub : ∀ c ∈ chosenOf options v, c ∈ d.map Prod.fst := by
          intro c hc
          rw [h]
          exact List.mem_of_mem_filter hc
        have hkeys : ((chosenOf options v).foldl incKey d).map Prod.fst = options := by
          rw [foldl_incKey_keys, h]
        obtain ⟨h1, h2⟩ := ih ((chosenOf options v).foldl incKey d)
          (n + (chosenOf options v).length) hkeys
        refine ⟨h1, ?_⟩
        rw [dictSum_foldl_incKey (chosenOf options v) d (by rw [h]; exact hnd) hsub] at h2
        omega

/-- C10: `aggregate_group` returns counts whose key set is exactly the
option list (unselected options stay at 0 and foreign keys read 0) and whose
value sum equals the returned `S`; hence the `S` recomputed inside
`render_stacked_bar` as `sum(counts.values())` (`barS`) agrees with the
aggregator's `S`. -/
theorem claim10 (column : List (Option String)) (options : List String)
    (hnd : options.Nodup) :
    (aggregate_group column options).1.map Prod.fst = options ∧
      dictSum (aggregate_group column options).1 = (aggregate_group column options).2 ∧
      barS (aggregate_group column options).1 = (aggregate_group column options).2 ∧
      (∀ o, o ∉ options → dget 0 (aggregate_group column options).1 o = 0) := by
  have hinit : ((options.map (fun o => (o, (0 : ℕ)))).map Prod.fst) = options := by
    rw [List.map_map]
    exact List.map_id options
  have h := agg_fold options hnd (column.filterMap id) (options.map (fun o => (o, 0))) 0 hinit
  have hz : dictSum (options.map (fun o => (o, (0 : ℕ)))) = 0 := by
    unfold dictSum
    rw [List.map_map]
    apply List.sum_eq_zero
    intro x hx
    obtain ⟨o, -, rfl⟩ := List.mem_map.mp hx
    rfl
  unfold aggregate_group
  refine ⟨h.1, ?_, ?_, ?_⟩
  · have h2 := h.2
    rw [hz] at h2
    omega
  · have h2 := h.2
    rw [hz] at h2
    unfold barS
    omega
  · intro o ho
    apply dget_not_mem
    rw [h.1]
    exact ho

/-- Concrete instantiation of `claim10`. -/
theorem claim10_witness :
    (aggregate_group [some "A"] ["A", "B"]).1.map Prod.fst = ["A", "B"] ∧
      dictSum (aggregate_group [some "A"] ["A", "B"]).1
        = (aggregate_group [some "A"] ["A", "B"]).2 :=
  ⟨(claim10 [some "A"] ["A", "B"] (by decide)).1,
   (claim10 [some "A"] ["A", "B"] (by decide)).2.1⟩

/-- C7: appending a row whose choice set misses every option (or a missing
cell, dropped by `dropna`) leaves counts and `S` unchanged; appending any
other row increments each matched option's count by exactly 1 and adds the
intersection's size to `S`. -/
theorem claim7 (column : List (Option String)) (options : List String)
    (hnd : options.Nodup) (v : String) :
    aggregate_group (column ++ [none]) options = aggregate_group column options ∧
      (chosenOf options v = [] →
        aggregate_group (column ++ [some v]) options = aggregate_group column options) ∧
      (chosenOf options v ≠ [] →
        (∀ o, dget 0 (aggregate_group (column ++ [some v]) options).1 o
            = dget 0 (aggregate_group column options).1 o
              + (if o ∈ options ∧ o ∈ cell_to_unique_set v then 1 else 0)) ∧
        (aggregate_group (column ++ [some v]) options).2
          = (aggregate_group column options).2 + (chosenOf options v).length) := by
  have hsplitN : aggregate_group (column ++ [none]) options
      = aggregate_group column options := by
    unfold aggregate_group
    rw [List.filterMap_append]
    simp
  have hsplit : aggregate_group (column ++ [some v]) options
      = aggStep options (aggregate_group column options) v := by
    unfold aggregate_group
    rw [List.filterMap_append, List.foldl_append]
    simp
  refine ⟨hsplitN, ?_, ?_⟩
  · intro hch
    rw [hsplit]
    unfold aggStep
    rw [hch]
    simp
  · intro hch
    have hchB : ¬ (chosenOf options v).isEmpty := by
      simpa [List.isEmpty_iff] using hch
    rw [hsplit,
      show aggStep options (aggregate_group column options) v
          = ((chosenOf options v).foldl incKey (aggregate_group column options).1,
            (aggregate_group column options).2 + (chosenOf options v).length) from by
        unfold aggStep; rw [if_neg hchB]]
    have hkeys : (aggregate_group column options).1.map Prod.fst = options := by
      unfold aggregate_group
      exact (agg_fold options hnd (column.filterMap id) _ 0
        (by rw [List.map_map]; exact List.map_id options)).1
    constructor
    · intro o
      rw [dget_foldl_incKey (chosenOf options v) (aggregate_group column options).1
        (hnd.filter _)
        (by intro c hc; rw [hkeys]; exact List.mem_of_mem_filter hc) o]
      have hmemiff : (o ∈ chosenOf options v) = (o ∈ options ∧ o ∈ cell_to_unique_set v) := by
        unfold chosenOf
        simp [List.mem_filter]
      simp only [hmemiff]
    · rfl

/-- Concrete instantiation of `claim7`: appending the row `"A"` to an empty
column adds 1 to `S` for options `["A", "B"]`. -/
theorem claim7_witness :
    (aggregate_group ([] ++ [some "A"]) ["A", "B"]).2
      = (aggregate_group [] ["A", "B"]).2 + (chosenOf ["A", "B"] "A").length :=
  ((claim7 [] ["A", "B"] (by decide) "A").2.2 (by decide)).2

end SGK
